import Mathlib

/-!
Shallow embedding of the transform pipeline of jiwer (src/jiwer/transforms.py).

Python strings are modelled as `List Char`.  Every regular-expression call in
the source uses either a literal pattern (the contraction table), a single
fixed pattern (multi-space collapse, bracketed-token removal) or a
literal-escaped word pattern anchored by word boundaries; each of those is
translated into an explicit recursive scanner below, following the
left-to-right, leftmost-match, continue-after-the-match semantics of
`re.sub`.  `str.replace` is translated the same way (literal scan).
Recursions are driven by an explicit fuel argument equal to the length of the
scanned list, so every definition reduces inside the kernel.

Transforms whose `process_string` is not expressible without a full Unicode
database or a general regex engine (`RemovePunctuation`, `SubstituteRegexes`)
and the pure case-folding transforms are outside the claims and are not part
of the embedded catalog.
-/

/-- The space character, written via its code point. -/
def spc : Char := Char.ofNat 32

/-- Horizontal tab. -/
def tabC : Char := Char.ofNat 9

/-- Line feed. -/
def lfC : Char := Char.ofNat 10

/-- Carriage return. -/
def crC : Char := Char.ofNat 13

/-- Vertical tab. -/
def vtC : Char := Char.ofNat 11

/-- Form feed. -/
def ffC : Char := Char.ofNat 12

/-- The apostrophe character, written via its code point. -/
def apos : Char := Char.ofNat 39

/-- The characters Python treats as whitespace for `str.strip()` and for the
whitespace class of `re` on text strings. -/
def pySpaceChars : List Char :=
  [tabC, lfC, vtC, ffC, crC,
   Char.ofNat 28, Char.ofNat 29, Char.ofNat 30, Char.ofNat 31,
   spc, Char.ofNat 133, Char.ofNat 160, Char.ofNat 5760,
   Char.ofNat 8192, Char.ofNat 8193, Char.ofNat 8194, Char.ofNat 8195,
   Char.ofNat 8196, Char.ofNat 8197, Char.ofNat 8198, Char.ofNat 8199,
   Char.ofNat 8200, Char.ofNat 8201, Char.ofNat 8202,
   Char.ofNat 8232, Char.ofNat 8233, Char.ofNat 8239,
   Char.ofNat 8287, Char.ofNat 12288]

/-- Whether a character is Python whitespace. -/
def isPySpace (c : Char) : Bool := pySpaceChars.contains c

/-- Python `s.strip()`: remove leading and trailing whitespace. -/
def pyStrip (s : List Char) : List Char :=
  ((s.dropWhile isPySpace).reverse.dropWhile isPySpace).reverse

/-- Scanner for Python `s.replace(pat, repl)` and for `re.sub` with a literal
pattern: leftmost occurrence first, continue after the replaced occurrence.
The fuel argument dominates the length of the scanned list. -/
def replaceAllAux (pat repl : List Char) : Nat → List Char → List Char
  | 0, s => s
  | _ + 1, [] => []
  | fuel + 1, c :: rest =>
    if !pat.isEmpty && pat.isPrefixOf (c :: rest) then
      repl ++ replaceAllAux pat repl fuel ((c :: rest).drop pat.length)
    else
      c :: replaceAllAux pat repl fuel rest

/-- Python `s.replace(pat, repl)` for a non-empty `pat`. -/
def replaceAll (pat repl s : List Char) : List Char :=
  replaceAllAux pat repl s.length s

/-- `BaseRemoveTransform.process_string`: fold `str.replace` over the token
list. -/
def baseRemoveCore (toks : List (List Char)) (repl : List Char) (s : List Char) : List Char :=
  toks.foldl (fun cur w => replaceAll w repl cur) s

/-- The characters of `string.whitespace`, in source order, each as a
one-character token (`RemoveWhiteSpace.__init__`). -/
def whitespaceTokens : List (List Char) :=
  [[spc], [tabC], [lfC], [crC], [vtC], [ffC]]

/-- Scanner for `re.sub` with the multi-space pattern (a whitespace character
followed by one or more whitespace characters, greedy): each maximal run of
two or more whitespace characters becomes one space. -/
def rmsAux : Nat → List Char → List Char
  | 0, s => s
  | _ + 1, [] => []
  | fuel + 1, c :: rest =>
    if isPySpace c then
      match rest with
      | [] => [c]
      | d :: rest2 =>
        if isPySpace d then
          spc :: rmsAux fuel (rest2.dropWhile isPySpace)
        else
          c :: rmsAux fuel rest
    else
      c :: rmsAux fuel rest

/-- `RemoveMultipleSpaces.process_string`. -/
def rms (s : List Char) : List Char := rmsAux s.length s

/-- Opening bracket class of the Kaldi non-word pattern. -/
def isOpenBr (c : Char) : Bool := c = Char.ofNat 60 || c = Char.ofNat 91

/-- Closing bracket class of the Kaldi non-word pattern. -/
def isCloseBr (c : Char) : Bool := c = Char.ofNat 62 || c = Char.ofNat 93

/-- Drop up to and including the first closing bracket; `none` when no
closing bracket occurs. -/
def findCloser : List Char → Option (List Char)
  | [] => none
  | c :: rest => if isCloseBr c then some rest else findCloser rest

/-- Scanner for `re.sub` with the Kaldi non-word pattern: an opening bracket,
then characters that are not closing brackets, then a closing bracket; the
match is deleted and the scan continues after it. -/
def removeKaldiAux : Nat → List Char → List Char
  | 0, s => s
  | _ + 1, [] => []
  | fuel + 1, c :: rest =>
    if isOpenBr c then
      match findCloser rest with
      | some rest2 => removeKaldiAux fuel rest2
      | none => c :: removeKaldiAux fuel rest
    else
      c :: removeKaldiAux fuel rest

/-- `RemoveKaldiNonWords.process_string`. -/
def removeKaldiStr (s : List Char) : List Char := removeKaldiAux s.length s

/-- Scanner for Python `s.split(d)` with a non-empty separator `d`:
accumulates the current field (reversed) and splits at each non-overlapping
occurrence of the separator. -/
def pySplitAux (d : List Char) : Nat → List Char → List Char → List (List Char)
  | 0, acc, s => [acc.reverse ++ s]
  | _ + 1, acc, [] => [acc.reverse]
  | fuel + 1, acc, c :: rest =>
    if !d.isEmpty && d.isPrefixOf (c :: rest) then
      acc.reverse :: pySplitAux d fuel [] ((c :: rest).drop d.length)
    else
      pySplitAux d fuel (c :: acc) rest

/-- Python `s.split(d)` for non-empty `d`. -/
def pySplit (d s : List Char) : List (List Char) := pySplitAux d s.length [] s

/-- The token list of one sentence in `ReduceToListOfListOfWords`: split by
the delimiter and keep the tokens of length at least one. -/
def wordsOf (d s : List Char) : List (List Char) :=
  (pySplit d s).filter (fun w => decide (1 ≤ w.length))

/-- The token list of one sentence in `ReduceToListOfListOfChars`: each
character becomes a one-character token. -/
def charsOf (s : List Char) : List (List Char) := s.map (fun c => [c])

/-- Word characters for the word-boundary assertion of `re` (the model keeps
the ASCII word characters: letters, digits and underscore). -/
def isWordChar (c : Char) : Bool := c.isAlphanum || c = Char.ofNat 95

/-- Word-character status of an optional character; positions outside the
subject count as non-word. -/
def wordOpt : Option Char → Bool
  | none => false
  | some c => isWordChar c

/-- Scanner for `re.sub` with a literal-escaped pattern anchored by word
boundaries on both sides (`SubstituteWords.process_string`): `prev` is the
subject character just before the scan position. -/
def subWordAux (pat repl : List Char) : Nat → Option Char → List Char → List Char
  | 0, _, s => s
  | _ + 1, _, [] => []
  | fuel + 1, prev, c :: rest =>
    if !pat.isEmpty && pat.isPrefixOf (c :: rest)
        && (wordOpt prev != wordOpt (some c))
        && (wordOpt pat.getLast? != wordOpt ((c :: rest).drop pat.length).head?) then
      repl ++ subWordAux pat repl fuel pat.getLast? ((c :: rest).drop pat.length)
    else
      c :: subWordAux pat repl fuel (some c) rest

/-- One whole-word substitution over a subject string. -/
def subWordAll (pat repl s : List Char) : List Char :=
  subWordAux pat repl s.length none s

/-- `SubstituteWords.process_string`: fold the whole-word substitutions over
the mapping items in order. -/
def substituteWordsStr (subs : List (List Char × List Char)) (s : List Char) : List Char :=
  subs.foldl (fun cur pr => subWordAll pr.1 pr.2 cur) s

/-- Sequential literal substitutions, as performed by the contraction
expansion. -/
def applySubsList (subs : List (List Char × List Char)) (s : List Char) : List Char :=
  subs.foldl (fun cur pr => replaceAll pr.1 pr.2 cur) s

/-- Pattern of the specific contraction rule for the word meaning will-not. -/
def wontP : List Char := ['w', 'o', 'n', apos, 't']

/-- Replacement of the will-not rule. -/
def wontR : List Char := ['w', 'i', 'l', 'l', spc, 'n', 'o', 't']

/-- Pattern of the specific contraction rule for the word meaning can-not. -/
def cantP : List Char := ['c', 'a', 'n', apos, 't']

/-- Replacement of the can-not rule. -/
def cantR : List Char := ['c', 'a', 'n', spc, 'n', 'o', 't']

/-- Pattern of the specific contraction rule for the phrase let-us. -/
def letsP : List Char := ['l', 'e', 't', apos, 's']

/-- Replacement of the let-us rule. -/
def letsR : List Char := ['l', 'e', 't', spc, 'u', 's']

/-- Generic ending pattern nt. -/
def ntP : List Char := ['n', apos, 't']

/-- Replacement of the nt ending. -/
def ntR : List Char := [spc, 'n', 'o', 't']

/-- Generic ending pattern re. -/
def reP : List Char := [apos, 'r', 'e']

/-- Replacement of the re ending. -/
def reR : List Char := [spc, 'a', 'r', 'e']

/-- Generic ending pattern s. -/
def sP : List Char := [apos, 's']

/-- Replacement of the s ending. -/
def sR : List Char := [spc, 'i', 's']

/-- Generic ending pattern d. -/
def dP : List Char := [apos, 'd']

/-- Replacement of the d ending. -/
def dR : List Char := [spc, 'w', 'o', 'u', 'l', 'd']

/-- Generic ending pattern ll. -/
def llP : List Char := [apos, 'l', 'l']

/-- Replacement of the ll ending. -/
def llR : List Char := [spc, 'w', 'i', 'l', 'l']

/-- Generic ending pattern t. -/
def tP : List Char := [apos, 't']

/-- Replacement of the t ending. -/
def tR : List Char := [spc, 'n', 'o', 't']

/-- Generic ending pattern ve. -/
def veP : List Char := [apos, 'v', 'e']

/-- Replacement of the ve ending. -/
def veR : List Char := [spc, 'h', 'a', 'v', 'e']

/-- Generic ending pattern m. -/
def mP : List Char := [apos, 'm']

/-- Replacement of the m ending. -/
def mR : List Char := [spc, 'a', 'm']

/-- The contraction table of `ExpandCommonEnglishContractions.process_string`,
in the order the source applies the rules: the three specific words first,
then the eight generic endings. -/
def contractionSteps : List (List Char × List Char) :=
  [(wontP, wontR), (cantP, cantR), (letsP, letsR),
   (ntP, ntR), (reP, reR), (sP, sR), (dP, dR),
   (llP, llR), (tP, tR), (veP, veR), (mP, mR)]

/-- `ExpandCommonEnglishContractions.process_string`. -/
def expandContractionsStr (s : List Char) : List Char :=
  applySubsList contractionSteps s

/-- The embedded transform catalog (the transforms the claims are about). -/
inductive Transform : Type
  | baseRemove (toks : List (List Char)) (repl : List Char)
  | removeWhiteSpace (replaceBySpace : Bool)
  | removeMultipleSpaces
  | strip
  | expandContractions
  | removeKaldiNonWords
  | substituteWords (subs : List (List Char × List Char))
  | removeSpecificWords (words : List (List Char))
  | reduceToListOfWords (d : List Char)
  | reduceToListOfChars
  | reduceToSingleSentence (d : List Char)
  | removeEmptyStrings
  deriving DecidableEq

/-- The string-to-string core of each transform's `process_string`.  For the
two reduction transforms, whose `process_string` does not return a string,
the value is unused by the dispatch functions below and is set to the
identity. -/
def stringCore : Transform → List Char → List Char
  | Transform.baseRemove toks repl, s => baseRemoveCore toks repl s
  | Transform.removeWhiteSpace rbs, s =>
      baseRemoveCore whitespaceTokens (if rbs then [spc] else []) s
  | Transform.removeMultipleSpaces, s => rms s
  | Transform.strip, s => pyStrip s
  | Transform.expandContractions, s => expandContractionsStr s
  | Transform.removeKaldiNonWords, s => removeKaldiStr s
  | Transform.substituteWords subs, s => substituteWordsStr subs s
  | Transform.removeSpecificWords words, s =>
      substituteWordsStr (words.map (fun w => (w, [spc]))) s
  | Transform.reduceToListOfWords _, s => s
  | Transform.reduceToListOfChars, s => s
  | Transform.reduceToSingleSentence _, s => s
  | Transform.removeEmptyStrings, s => pyStrip s

/-- Values a transform can return: a string, a list of strings, or a list of
token lists. -/
inductive Val : Type
  | str (x : List Char)
  | ls (x : List (List Char))
  | lls (x : List (List (List Char)))
  deriving DecidableEq

/-- Whether the class overrides the default per-element collection
processing with collection-aware semantics. -/
def collectionAware : Transform → Bool
  | Transform.reduceToListOfWords _ => true
  | Transform.reduceToListOfChars => true
  | Transform.reduceToSingleSentence _ => true
  | Transform.removeEmptyStrings => true
  | _ => false

/-- `process_string` of each transform. -/
def procStr : Transform → List Char → Val
  | Transform.reduceToListOfWords d, s => Val.lls [wordsOf d s]
  | Transform.reduceToListOfChars, s => Val.lls [charsOf s]
  | t, s => Val.str (stringCore t s)

/-- `process_list` of each transform: the four collection-aware transforms
follow their overrides, the rest process each element independently. -/
def procList : Transform → List (List Char) → Val
  | Transform.reduceToListOfWords d, inp =>
      Val.lls (if inp.isEmpty then [[]] else inp.map (wordsOf d))
  | Transform.reduceToListOfChars, inp =>
      Val.lls (if inp.isEmpty then [[]] else inp.map charsOf)
  | Transform.reduceToSingleSentence d, inp =>
      Val.ls
        (if (inp.filter (fun i => !i.isEmpty)).isEmpty then []
         else [List.intercalate d (inp.filter (fun i => !i.isEmpty))])
  | Transform.removeEmptyStrings, inp =>
      Val.ls (inp.filter (fun x => !(pyStrip x).isEmpty))
  | t, inp => Val.ls (inp.map (stringCore t))

/-- Inputs of `AbstractTransform.__call__`: a string, a list of strings, or
anything else. -/
inductive PyInput : Type
  | str (s : List Char)
  | listOfStr (l : List (List Char))
  | other

/-- The error kinds of the spec that the transform layer can raise. -/
inductive TransformError : Type
  | invalidInputKind
  deriving DecidableEq

/-- `AbstractTransform.__call__`: dispatch on the kind of the input, raising
on anything that is neither a string nor a list. -/
def callTransform (t : Transform) : PyInput → Except TransformError Val
  | PyInput.str s => Except.ok (procStr t s)
  | PyInput.listOfStr l => Except.ok (procList t l)
  | PyInput.other => Except.error TransformError.invalidInputKind

/-- `Compose.__call__` threaded over string inputs for a pipeline of
string-to-string transforms. -/
def composeCore (ts : List Transform) (s : List Char) : List Char :=
  ts.foldl (fun cur t => stringCore t cur) s

/-- The characters of `string.whitespace` as a set of characters. -/
def stringWhitespace : List Char := [spc, tabC, lfC, crC, vtC, ffC]

/-- Whether `pat` occurs as a contiguous substring of the scanned list. -/
def occursIn (pat : List Char) : List Char → Bool
  | [] => pat.isEmpty
  | c :: rest => pat.isPrefixOf (c :: rest) || occursIn pat rest

/-- Whether none of the contraction patterns occurs in `s`. -/
def noContractionOccurs (s : List Char) : Bool :=
  contractionSteps.all (fun pr => !occursIn pr.1 s)

/-- The first character, when present, is not whitespace. -/
def noLeadWs (l : List Char) : Prop :=
  ∀ c, l.head? = some c → isPySpace c = false

/-- The last character, when present, is not whitespace. -/
def noTrailWs (l : List Char) : Prop :=
  ∀ c, l.getLast? = some c → isPySpace c = false

/-- No two adjacent characters are both whitespace. -/
def noDoubleWs (l : List Char) : Prop :=
  List.Chain' (fun a b => ¬(isPySpace a = true ∧ isPySpace b = true)) l

/-- Claim C1: for every transform whose collection behavior is per-element
(not explicitly collection-aware), applying it to the singleton list made of
a string yields the singleton list of the result of applying it to the
string. -/
theorem claim1 (t : Transform) (s : List Char) (h : collectionAware t = false) :
    procList t [s] = Val.ls [stringCore t s] ∧ procStr t s = Val.str (stringCore t s) := by
  cases t <;> simp_all [collectionAware, procList, procStr]

/-- Witness for claim C1 at the trim transform and a one-character string. -/
theorem claim1_witness :
    procList Transform.strip [['a']] = Val.ls [['a']] ∧
    procStr Transform.strip ['a'] = Val.str ['a'] := by
  have h := claim1 Transform.strip ['a'] rfl
  exact ⟨h.1.trans (by decide), h.2.trans (by decide)⟩

/-- Claim C2: the dispatch of a transform call raises the invalid-input-kind
error exactly on inputs that are neither a string nor a list of strings;
string and list inputs are dispatched without error. -/
theorem claim2 (t : Transform) :
    callTransform t PyInput.other = Except.error TransformError.invalidInputKind ∧
    (∀ s, callTransform t (PyInput.str s) = Except.ok (procStr t s)) ∧
    (∀ l, callTransform t (PyInput.listOfStr l) = Except.ok (procList t l)) :=
  ⟨rfl, fun _ => rfl, fun _ => rfl⟩

/-- Claim C3: the token and character reduction transforms wrap a single
sentence's token list in a singleton collection, filter out zero-length
tokens, map a non-empty input collection sentence by sentence in order, and
turn the empty input collection into a collection holding one empty token
list. -/
theorem claim3 (d : List Char) (_hd : d ≠ []) :
    (∀ s, procStr (Transform.reduceToListOfWords d) s = Val.lls [wordsOf d s] ∧
      ∀ w ∈ wordsOf d s, w ≠ []) ∧
    procList (Transform.reduceToListOfWords d) [] = Val.lls [[]] ∧
    (∀ inp, inp ≠ [] →
      procList (Transform.reduceToListOfWords d) inp = Val.lls (inp.map (wordsOf d))) ∧
    (∀ s, procStr Transform.reduceToListOfChars s = Val.lls [charsOf s] ∧
      ∀ w ∈ charsOf s, w ≠ []) ∧
    procList Transform.reduceToListOfChars [] = Val.lls [[]] ∧
    (∀ inp, inp ≠ [] →
      procList Transform.reduceToListOfChars inp = Val.lls (inp.map charsOf)) := by
  refine ⟨fun s => ⟨rfl, fun w hw => ?_⟩, rfl, fun inp hi => ?_,
    fun s => ⟨rfl, fun w hw => ?_⟩, rfl, fun inp hi => ?_⟩
  · simp only [wordsOf, List.mem_filter, decide_eq_true_eq] at hw
    exact List.ne_nil_of_length_pos hw.2
  · simp [procList, List.isEmpty_iff, hi]
  · simp only [charsOf, List.mem_map] at hw
    obtain ⟨c, _, rfl⟩ := hw
    simp
  · simp [procList, List.isEmpty_iff, hi]

/-- Witness for claim C3 at the space delimiter and a two-word sentence. -/
theorem claim3_witness :
    procList (Transform.reduceToListOfWords [spc]) [['a', spc, 'b']] =
      Val.lls [[['a'], ['b']]] := by
  have h := (claim3 [spc] (by decide)).2.2.1 [['a', spc, 'b']] (by decide)
  exact h.trans (by decide)

/-- Claim C4: the sentence-join transform is the identity on a single
string; on a list it joins the non-empty elements in order with the
delimiter into a singleton collection, and yields the empty collection when
every element is empty. -/
theorem claim4 (d : List Char) :
    (∀ s, procStr (Transform.reduceToSingleSentence d) s = Val.str s) ∧
    (∀ inp, (∀ x ∈ inp, x = []) →
      procList (Transform.reduceToSingleSentence d) inp = Val.ls []) ∧
    (∀ inp, (∃ x ∈ inp, x ≠ []) →
      procList (Transform.reduceToSingleSentence d) inp =
        Val.ls [List.intercalate d (inp.filter (fun i => !i.isEmpty))]) := by
  refine ⟨fun s => rfl, fun inp h => ?_, fun inp h => ?_⟩
  · have hf : inp.filter (fun i => !i.isEmpty) = [] := by
      rw [List.filter_eq_nil_iff]
      intro a ha
      simp [h a ha]
    simp [procList, hf]
  · obtain ⟨x, hx, hne⟩ := h
    have hf : (inp.filter (fun i => !i.isEmpty)).isEmpty = false := by
      rw [List.isEmpty_eq_false_iff_exists_mem]
      exact ⟨x, List.mem_filter.mpr ⟨hx, by simpa using hne⟩⟩
    simp [procList, hf]

/-- Witness for claim C4 at the space delimiter and a list whose first
element is empty. -/
theorem claim4_witness :
    procList (Transform.reduceToSingleSentence [spc]) [[], ['a'], ['b']] =
      Val.ls [['a', spc, 'b']] := by
  have h := (claim4 [spc]).2.2 [[], ['a'], ['b']] ⟨['a'], by decide, by decide⟩
  exact h.trans (by decide)

/-- Claim C9: the empty-string filter trims a single string, and on a
collection keeps exactly the elements that are non-empty after trimming,
unchanged and in their original order. -/
theorem claim9 :
    (∀ s, procStr Transform.removeEmptyStrings s = Val.str (pyStrip s)) ∧
    (∀ inp,
      procList Transform.removeEmptyStrings inp =
        Val.ls (inp.filter (fun x => !(pyStrip x).isEmpty)) ∧
      List.Sublist (inp.filter (fun x => !(pyStrip x).isEmpty)) inp ∧
      ∀ x ∈ inp, (pyStrip x).isEmpty = false →
        x ∈ inp.filter (fun x => !(pyStrip x).isEmpty)) := by
  refine ⟨fun s => rfl, fun inp => ⟨rfl, List.filter_sublist inp, fun x hx h => ?_⟩⟩
  simp [List.mem_filter, hx, h]

/-- Witness for claim C9 at a two-element list whose second element trims to
empty. -/
theorem claim9_witness :
    ['a'] ∈ [['a'], [spc]].filter (fun x => !(pyStrip x).isEmpty) :=
  (claim9.2 [['a'], [spc]]).2.2 ['a'] (by decide) (by decide)

/-- Claim C10: word removal is whole-word substitution of each listed word
by a single space, and substitution keys are matched literally between word
boundaries: a dot in a key only matches a dot, and an occurrence inside a
larger word is not replaced. -/
theorem claim10 :
    (∀ words s, stringCore (Transform.removeSpecificWords words) s =
      substituteWordsStr (words.map (fun w => (w, [spc]))) s) ∧
    substituteWordsStr [(['a', '.', 'c'], ['X'])] ['a', '.', 'c'] = ['X'] ∧
    substituteWordsStr [(['a', '.', 'c'], ['X'])] ['a', 'b', 'c'] = ['a', 'b', 'c'] ∧
    stringCore (Transform.removeSpecificWords [['h', 'i']])
      ['h', 'i', spc, 't', 'h', 'e', 'r', 'e'] =
      [spc, spc, 't', 'h', 'e', 'r', 'e'] ∧
    substituteWordsStr [(['i', 's'], ['X'])] ['t', 'h', 'i', 's', spc, 'i', 's'] =
      ['t', 'h', 'i', 's', spc, 'X'] := by
  refine ⟨fun words s => rfl, ?_, ?_, ?_, ?_⟩ <;> decide

/-- Helper: a literal scan returns the subject unchanged when the pattern
does not occur in it. -/
theorem replaceAllAux_of_no_occurrence (pat repl : List Char) :
    ∀ (fuel : Nat) (s : List Char), ¬ pat <:+: s → replaceAllAux pat repl fuel s = s := by
  intro fuel s
  induction s generalizing fuel with
  | nil => intro _; cases fuel <;> rfl
  | cons c rest ih =>
    intro h
    cases fuel with
    | zero => rfl
    | succ fuel =>
      have hp : pat.isPrefixOf (c :: rest) = false := by
        rw [Bool.eq_false_iff]
        intro hpre
        have hpre2 : pat <+: c :: rest := List.isPrefixOf_iff_prefix.mp hpre
        exact h (List.IsPrefix.isInfix hpre2)
      simp only [replaceAllAux, hp, Bool.and_false, Bool.false_eq_true, if_false]
      exact congrArg (c :: ·) (ih fuel (fun hin => h ( List.infix_cons hin)))

/-- Helper: sequential literal substitutions fix a subject in which no
pattern occurs. -/
theorem applySubsList_of_no_occurrence (s : List Char) :
    ∀ subs : List (List Char × List Char),
      (∀ pr ∈ subs, ¬ pr.1 <:+: s) → applySubsList subs s = s := by
  intro subs
  induction subs with
  | nil => intro _; rfl
  | cons p ps ih =>
    intro h
    have h1 : replaceAll p.1 p.2 s = s :=
      replaceAllAux_of_no_occurrence p.1 p.2 s.length s (h p (List.mem_cons_self p ps))
    calc applySubsList (p :: ps) s = applySubsList ps (replaceAll p.1 p.2 s) := rfl
    _ = applySubsList ps s := by rw [h1]
    _ = s := ih (fun pr hpr => h pr (List.mem_cons_of_mem p hpr))

/-- Helper: the occurrence scanner decides the substring relation. -/
theorem occursIn_iff (pat s : List Char) : occursIn pat s = true ↔ pat <:+: s := by
  induction s with
  | nil => simp [occursIn, List.isEmpty_iff]
  | cons c rest ih => simp [occursIn, ih, List.infix_cons_iff]

/-- Claim C6: the contraction expansion rewrites exactly the listed
contractions, in the stated fixed order: a string in which no listed pattern
occurs is unchanged, each listed contraction is rewritten to its listed
replacement, and the specific rules fire before the generic endings (the
will-not contraction never becomes the wo-not form). -/
theorem claim6 :
    (∀ s, noContractionOccurs s = true → expandContractionsStr s = s) ∧
    expandContractionsStr wontP = wontR ∧
    expandContractionsStr cantP = cantR ∧
    expandContractionsStr letsP = letsR ∧
    expandContractionsStr ['d', 'o', 'n', apos, 't'] = ['d', 'o', spc, 'n', 'o', 't'] ∧
    expandContractionsStr ['y', 'o', 'u', apos, 'r', 'e'] =
      ['y', 'o', 'u', spc, 'a', 'r', 'e'] ∧
    expandContractionsStr ['i', 't', apos, 's'] = ['i', 't', spc, 'i', 's'] ∧
    expandContractionsStr ['h', 'e', apos, 'd'] = ['h', 'e', spc, 'w', 'o', 'u', 'l', 'd'] ∧
    expandContractionsStr ['s', 'h', 'e', apos, 'l', 'l'] =
      ['s', 'h', 'e', spc, 'w', 'i', 'l', 'l'] ∧
    expandContractionsStr [apos, 't', 'w', 'a', 's'] = [spc, 'n', 'o', 't', 'w', 'a', 's'] ∧
    expandContractionsStr ['i', apos, 'v', 'e'] = ['i', spc, 'h', 'a', 'v', 'e'] ∧
    expandContractionsStr ['i', apos, 'm'] = ['i', spc, 'a', 'm'] ∧
    expandContractionsStr wontP ≠ ['w', 'o', spc, 'n', 'o', 't'] := by
  refine ⟨fun s h => ?_, by decide⟩
  apply applySubsList_of_no_occurrence
  intro pr hpr
  have hb := List.all_eq_true.mp h pr hpr
  intro hin
  rw [(occursIn_iff pr.1 s).mpr hin] at hb
  simp at hb

/-- Witness for claim C6 at a contraction-free string. -/
theorem claim6_witness : expandContractionsStr ['h', 'i'] = ['h', 'i'] :=
  claim6.1 ['h', 'i'] (by decide)

/-- Helper: one scan step of a one-character pattern either replaces the
head or keeps it. -/
theorem replaceAllAux_single_step (w : Char) (repl : List Char) (fuel : Nat) (c : Char)
    (rest : List Char) :
    replaceAllAux [w] repl (fuel + 1) (c :: rest) =
      if c = w then repl ++ replaceAllAux [w] repl fuel rest
      else c :: replaceAllAux [w] repl fuel rest := by
  by_cases hc : c = w
  · subst hc
    simp [replaceAllAux, List.isPrefixOf]
  · simp [replaceAllAux, List.isPrefixOf, hc, Ne.symm hc]

/-- Helper: replacing one character by nothing is filtering it out. -/
theorem replaceAllAux_single_char_del (w : Char) :
    ∀ (fuel : Nat) (s : List Char), s.length ≤ fuel →
      replaceAllAux [w] [] fuel s = s.filter (fun c => !(c == w)) := by
  intro fuel
  induction fuel with
  | zero =>
    intro s hs
    have hnil : s = [] := List.eq_nil_of_length_eq_zero (Nat.le_zero.mp hs)
    subst hnil
    rfl
  | succ fuel ih =>
    intro s hs
    cases s with
    | nil => rfl
    | cons c rest =>
      rw [replaceAllAux_single_step]
      by_cases hc : c = w
      · rw [if_pos hc, List.filter_cons_of_neg (by simp [hc]), List.nil_append]
        exact ih rest (Nat.le_of_succ_le_succ hs)
      · rw [if_neg hc, List.filter_cons_of_pos (by simp [hc])]
        exact congrArg (c :: ·) (ih rest (Nat.le_of_succ_le_succ hs))

/-- Helper: replacing one character by another single character is a map. -/
theorem replaceAllAux_single_char_map (w x : Char) :
    ∀ (fuel : Nat) (s : List Char), s.length ≤ fuel →
      replaceAllAux [w] [x] fuel s = s.map (fun c => if c = w then x else c) := by
  intro fuel
  induction fuel with
  | zero =>
    intro s hs
    have hnil : s = [] := List.eq_nil_of_length_eq_zero (Nat.le_zero.mp hs)
    subst hnil
    rfl
  | succ fuel ih =>
    intro s hs
    cases s with
    | nil => rfl
    | cons c rest =>
      rw [replaceAllAux_single_step, List.map_cons]
      by_cases hc : c = w
      · rw [if_pos hc, if_pos hc, List.singleton_append]
        exact congrArg (x :: ·) (ih rest (Nat.le_of_succ_le_succ hs))
      · rw [if_neg hc, if_neg hc]
        exact congrArg (c :: ·) (ih rest (Nat.le_of_succ_le_succ hs))

/-- Helper: lifting the deletion form to `replaceAll`. -/
theorem replaceAll_single_char_del (w : Char) (s : List Char) :
    replaceAll [w] [] s = s.filter (fun c => !(c == w)) :=
  replaceAllAux_single_char_del w s.length s Nat.le.refl

/-- Helper: lifting the map form to `replaceAll`. -/
theorem replaceAll_single_char_map (w x : Char) (s : List Char) :
    replaceAll [w] [x] s = s.map (fun c => if c = w then x else c) :=
  replaceAllAux_single_char_map w x s.length s Nat.le.refl

/-- Claim C8: in removal mode no character of the whitespace set survives in
the output, and in replace-by-space mode every character of the whitespace
set is mapped to a single space while other characters are unchanged. -/
theorem claim8 :
    (∀ s c, c ∈ stringCore (Transform.removeWhiteSpace false) s →
      c ∉ stringWhitespace) ∧
    (∀ s, stringCore (Transform.removeWhiteSpace true) s =
      s.map (fun c => if c ∈ stringWhitespace then spc else c)) := by
  constructor
  · intro s c hc
    have hrw : stringCore (Transform.removeWhiteSpace false) s =
        ((((((s.filter (fun c => !(c == spc))).filter (fun c => !(c == tabC))).filter
          (fun c => !(c == lfC))).filter (fun c => !(c == crC))).filter
          (fun c => !(c == vtC))).filter (fun c => !(c == ffC))) := by
      simp [stringCore, baseRemoveCore, whitespaceTokens, List.foldl_cons,
        List.foldl_nil, replaceAll_single_char_del]
    rw [hrw] at hc
    simp only [List.mem_filter, Bool.not_eq_eq_eq_not, Bool.not_true, beq_eq_false_iff_ne,
      ne_eq] at hc
    simp only [stringWhitespace, List.mem_cons, List.not_mem_nil, or_false]
    push_neg
    exact ⟨hc.1.1.1.1.1.2, hc.1.1.1.1.2, hc.1.1.1.2, hc.1.1.2, hc.1.2, hc.2⟩
  · intro s
    have hrw : stringCore (Transform.removeWhiteSpace true) s =
        ((((((s.map (fun c => if c = spc then spc else c)).map
          (fun c => if c = tabC then spc else c)).map
          (fun c => if c = lfC then spc else c)).map
          (fun c => if c = crC then spc else c)).map
          (fun c => if c = vtC then spc else c)).map
          (fun c => if c = ffC then spc else c)) := by
      simp [stringCore, baseRemoveCore, whitespaceTokens, List.foldl_cons,
        List.foldl_nil, replaceAll_single_char_map]
    rw [hrw]
    simp only [List.map_map]
    apply List.map_congr_left
    intro c _
    by_cases h : c ∈ stringWhitespace
    · simp only [stringWhitespace, List.mem_cons, List.not_mem_nil, or_false] at h
      rcases h with rfl | rfl | rfl | rfl | rfl | rfl <;> decide
    · have hne : c ≠ spc ∧ c ≠ tabC ∧ c ≠ lfC ∧ c ≠ crC ∧ c ≠ vtC ∧ c ≠ ffC := by
        simp only [stringWhitespace, List.mem_cons, List.not_mem_nil, or_false] at h
        push_neg at h
        exact h
      obtain ⟨h1, h2, h3, h4, h5, h6⟩ := hne
      simp [Function.comp, h1, h2, h3, h4, h5, h6, h]

/-- Witness for claim C8 at a string holding a letter and a tab. -/
theorem claim8_witness : 'a' ∉ stringWhitespace :=
  claim8.1 ['a', tabC] 'a' (by decide)

/-- Helper: consuming up to the first closing bracket shortens the list. -/
theorem findCloser_length :
    ∀ (rest rest2 : List Char), findCloser rest = some rest2 →
      rest2.length < rest.length := by
  intro rest
  induction rest with
  | nil => intro rest2 h; exact absurd h (by simp [findCloser])
  | cons c tl ih =>
    intro rest2 h
    by_cases hcl : isCloseBr c = true
    · simp only [findCloser, hcl, if_true, Option.some.injEq] at h
      subst h
      simp
    · simp only [findCloser, hcl, Bool.false_eq_true, if_false] at h
      exact Nat.lt_trans (ih rest2 h) (by simp)

/-- Helper: the Kaldi scan does not depend on the fuel, once the fuel
dominates the length of the scanned list. -/
theorem removeKaldiAux_fuel :
    ∀ (fuel1 : Nat) (s : List Char) (fuel2 : Nat), s.length ≤ fuel1 → s.length ≤ fuel2 →
      removeKaldiAux fuel1 s = removeKaldiAux fuel2 s := by
  intro fuel1
  induction fuel1 with
  | zero =>
    intro s fuel2 h1 _
    have hnil : s = [] := List.eq_nil_of_length_eq_zero (Nat.le_zero.mp h1)
    subst hnil
    cases fuel2 <;> rfl
  | succ fuel1 ih =>
    intro s fuel2 h1 h2
    cases s with
    | nil => cases fuel2 <;> rfl
    | cons c rest =>
      cases fuel2 with
      | zero => exact absurd h2 (by simp)
      | succ fuel2 =>
        simp only [removeKaldiAux]
        by_cases ho : isOpenBr c = true
        · simp only [ho, if_true]
          cases hf : findCloser rest with
          | some rest2 =>
            have hlt := findCloser_length rest rest2 hf
            have hr1 : rest2.length ≤ fuel1 := by
              simp only [List.length_cons] at h1
              omega
            have hr2 : rest2.length ≤ fuel2 := by
              simp only [List.length_cons] at h2
              omega
            exact ih rest2 fuel2 hr1 hr2
          | none =>
            exact congrArg (c :: ·)
              (ih rest fuel2 (Nat.le_of_succ_le_succ h1) (Nat.le_of_succ_le_succ h2))
        · simp only [ho, Bool.false_eq_true, if_false]
          exact congrArg (c :: ·)
            (ih rest fuel2 (Nat.le_of_succ_le_succ h1) (Nat.le_of_succ_le_succ h2))

/-- Helper: a list without closing brackets has no closer to find. -/
theorem findCloser_eq_none :
    ∀ rest : List Char, (∀ x ∈ rest, isCloseBr x = false) → findCloser rest = none := by
  intro rest
  induction rest with
  | nil => intro _; rfl
  | cons c tl ih =>
    intro h
    have hc := h c (List.mem_cons_self c tl)
    simp only [findCloser, hc, Bool.false_eq_true, if_false]
    exact ih (fun x hx => h x (List.mem_cons_of_mem c hx))

/-- Helper: the first closer after a closer-free middle segment is found
exactly. -/
theorem findCloser_append :
    ∀ (mid : List Char) (cl : Char) (rest : List Char),
      (∀ x ∈ mid, isCloseBr x = false) → isCloseBr cl = true →
      findCloser (mid ++ cl :: rest) = some rest := by
  intro mid
  induction mid with
  | nil =>
    intro cl rest _ hcl
    simp [findCloser, hcl]
  | cons m tl ih =>
    intro cl rest h hcl
    have hm := h m (List.mem_cons_self m tl)
    simp only [List.cons_append, findCloser, hm, Bool.false_eq_true, if_false]
    exact ih cl rest (fun x hx => h x (List.mem_cons_of_mem m hx)) hcl

/-- Counterexample to claim C7: the bracketed-token removal deletes a span
opened by an angle bracket and closed by a square bracket, which the claim
says is never removed. -/
theorem claim7_counterexample :
    stringCore Transform.removeKaldiNonWords ['<', 'a', ']'] = [] ∧
    stringCore Transform.removeKaldiNonWords ['<', 'a', ']'] ≠ ['<', 'a', ']'] := by
  decide

/-- Claim C7 as amended: the transform removes exactly the spans that start
at an opening angle or square bracket and end at the nearest following
closing angle or square bracket (either opener may be paired with either
closer); all other characters, including an opener with no later closer, are
kept unchanged. -/
theorem claim7_amended :
    (∀ c rest, isOpenBr c = false →
      stringCore Transform.removeKaldiNonWords (c :: rest) =
        c :: stringCore Transform.removeKaldiNonWords rest) ∧
    (∀ c rest, isOpenBr c = true → (∀ x ∈ rest, isCloseBr x = false) →
      stringCore Transform.removeKaldiNonWords (c :: rest) =
        c :: stringCore Transform.removeKaldiNonWords rest) ∧
    (∀ c mid cl rest, isOpenBr c = true → (∀ x ∈ mid, isCloseBr x = false) →
      isCloseBr cl = true →
      stringCore Transform.removeKaldiNonWords (c :: (mid ++ cl :: rest)) =
        stringCore Transform.removeKaldiNonWords rest) ∧
    stringCore Transform.removeKaldiNonWords [] = [] := by
  refine ⟨fun c rest ho => ?_, fun c rest ho hnc => ?_, fun c mid cl rest ho hmid hcl => ?_, rfl⟩
  · show removeKaldiStr (c :: rest) = c :: removeKaldiStr rest
    simp only [removeKaldiStr, List.length_cons, removeKaldiAux, ho, Bool.false_eq_true,
      if_false]
  · show removeKaldiStr (c :: rest) = c :: removeKaldiStr rest
    simp only [removeKaldiStr, List.length_cons, removeKaldiAux, ho, if_true,
      findCloser_eq_none rest hnc]
  · show removeKaldiStr (c :: (mid ++ cl :: rest)) = removeKaldiStr rest
    simp only [removeKaldiStr, List.length_cons, removeKaldiAux, ho, if_true,
      findCloser_append mid cl rest hmid hcl]
    exact removeKaldiAux_fuel _ rest rest.length (by simp; omega) Nat.le.refl

/-- Witness for claim C7 as amended, removing a span opened by an angle
bracket and closed by a square bracket before a kept character. -/
theorem claim7_witness :
    stringCore Transform.removeKaldiNonWords ['<', 'a', ']', 'x'] =
      stringCore Transform.removeKaldiNonWords ['x'] := by
  have h := claim7_amended.2.2.1 '<' ['a'] ']' ['x'] (by decide) (by decide) (by decide)
  simpa using h

/-- Helper: the collapse scanner maps the empty list to itself for any
fuel. -/
theorem rmsAux_nil : ∀ fuel : Nat, rmsAux fuel [] = [] := by
  intro fuel
  cases fuel <;> rfl

/-- Helper: the collapse scanner never empties a non-empty list. -/
theorem rmsAux_ne_nil : ∀ (fuel : Nat) (c : Char) (rest : List Char),
    rmsAux fuel (c :: rest) ≠ [] := by
  intro fuel c rest
  cases fuel with
  | zero => simp [rmsAux]
  | succ fuel =>
    by_cases hc : isPySpace c = true
    · cases rest with
      | nil => simp [rmsAux, hc]
      | cons d rest2 =>
        by_cases hd : isPySpace d = true
        · simp [rmsAux, hc, hd]
        · simp [rmsAux, hc, hd]
    · simp [rmsAux, hc]

/-- Helper: a non-whitespace head survives the collapse. -/
theorem rmsAux_head_of_nonspace :
    ∀ (fuel : Nat) (c : Char) (rest : List Char), isPySpace c = false →
      (rmsAux fuel (c :: rest)).head? = some c := by
  intro fuel c rest h
  cases fuel with
  | zero => rfl
  | succ fuel => simp [rmsAux, h]

/-- Helper: the head of what remains after dropping a whitespace prefix is
not whitespace. -/
theorem dropWhile_head_false :
    ∀ (l : List Char) (c : Char), (l.dropWhile isPySpace).head? = some c →
      isPySpace c = false := by
  intro l
  induction l with
  | nil => intro c h; simp [List.dropWhile] at h
  | cons x xs ih =>
    intro c h
    by_cases hx : isPySpace x = true
    · rw [List.dropWhile_cons_of_pos hx] at h
      exact ih c h
    · rw [List.dropWhile_cons_of_neg hx] at h
      have hxc : x = c := by simpa using h
      subst hxc
      exact Bool.eq_false_iff.mpr hx

/-- Helper: dropping a whitespace prefix keeps the last element whenever the
remainder is non-empty. -/
theorem dropWhile_getLast?_eq :
    ∀ l : List Char, l.dropWhile isPySpace ≠ [] →
      (l.dropWhile isPySpace).getLast? = l.getLast? := by
  intro l
  induction l with
  | nil => intro h; exact absurd rfl h
  | cons x xs ih =>
    intro h
    by_cases hx : isPySpace x = true
    · rw [List.dropWhile_cons_of_pos hx] at h ⊢
      have hxs : xs ≠ [] := by
        intro hnil
        subst hnil
        simp [List.dropWhile] at h
      rw [ih h]
      cases xs with
      | nil => exact absurd rfl hxs
      | cons y ys => simp
    · rw [List.dropWhile_cons_of_neg hx]

/-- Helper: a list without adjacent whitespace pairs is a fixed point of the
collapse, whatever the fuel. -/
theorem rmsAux_of_noDouble :
    ∀ s : List Char, noDoubleWs s → ∀ fuel : Nat, rmsAux fuel s = s := by
  intro s
  induction s with
  | nil => intro _ fuel; exact rmsAux_nil fuel
  | cons c rest ih =>
    intro h fuel
    cases fuel with
    | zero => rfl
    | succ fuel =>
      by_cases hc : isPySpace c = true
      · cases rest with
        | nil => simp [rmsAux, hc]
        | cons d rest2 =>
          have hcd := (List.chain'_cons.mp h).1
          have hd : isPySpace d = false := by
            rcases Bool.eq_false_or_eq_true (isPySpace d) with hdt | hdf
            · exact absurd ⟨hc, hdt⟩ hcd
            · exact hdf
          simp only [rmsAux, hc, if_true, hd, Bool.false_eq_true, if_false]
          exact congrArg (c :: ·) (ih (List.chain'_cons.mp h).2 fuel)
      · have hcf : isPySpace c = false := Bool.eq_false_iff.mpr hc
        simp only [rmsAux, hcf, Bool.false_eq_true, if_false]
        exact congrArg (c :: ·) (ih (List.Chain'.tail h) fuel)

/-- Helper: after a collapse no two adjacent whitespace characters remain. -/
theorem noDouble_rmsAux :
    ∀ (fuel : Nat) (s : List Char), s.length ≤ fuel → noDoubleWs (rmsAux fuel s) := by
  intro fuel
  induction fuel with
  | zero =>
    intro s hs
    have hnil : s = [] := List.eq_nil_of_length_eq_zero (Nat.le_zero.mp hs)
    subst hnil
    exact List.chain'_nil
  | succ fuel ih =>
    intro s hs
    cases s with
    | nil => rw [rmsAux_nil]; exact List.chain'_nil
    | cons c rest =>
      by_cases hc : isPySpace c = true
      · cases rest with
        | nil =>
          simp only [rmsAux, hc, if_true]
          exact List.chain'_singleton c
        | cons d rest2 =>
          by_cases hd : isPySpace d = true
          · simp only [rmsAux, hc, if_true, hd]
            refine List.chain'_cons'.mpr ⟨?_, ?_⟩
            · intro y hy hpair
              cases hw : rest2.dropWhile isPySpace with
              | nil =>
                rw [hw, rmsAux_nil] at hy
                simp at hy
              | cons w0 w1 =>
                have hw0 : isPySpace w0 = false :=
                  dropWhile_head_false rest2 w0 (by rw [hw]; rfl)
                rw [hw, rmsAux_head_of_nonspace fuel w0 w1 hw0] at hy
                have hyw : w0 = y := by simpa using hy
                subst hyw
                rw [hw0] at hpair
                exact absurd hpair.2 (by simp)
            · apply ih
              have h1 := (List.dropWhile_suffix (l := rest2) isPySpace).length_le
              simp only [List.length_cons] at hs
              omega
          · have hdf : isPySpace d = false := Bool.eq_false_iff.mpr hd
            simp only [rmsAux, hc, if_true, hdf, Bool.false_eq_true, if_false]
            refine List.chain'_cons'.mpr ⟨?_, ?_⟩
            · intro y hy hpair
              rw [rmsAux_head_of_nonspace fuel d rest2 hdf] at hy
              have hyd : d = y := by simpa using hy
              subst hyd
              rw [hdf] at hpair
              exact absurd hpair.2 (by simp)
            · exact ih (d :: rest2) (Nat.le_of_succ_le_succ hs)
      · have hcf : isPySpace c = false := Bool.eq_false_iff.mpr hc
        simp only [rmsAux, hcf, Bool.false_eq_true, if_false]
        refine List.chain'_cons'.mpr ⟨?_, ?_⟩
        · intro y _ hpair
          rw [hcf] at hpair
          exact absurd hpair.1 (by simp)
        · exact ih rest (Nat.le_of_succ_le_succ hs)

/-- Helper: the collapse keeps a whitespace-free head whitespace-free. -/
theorem noLead_rmsAux (fuel : Nat) (s : List Char) (h : noLeadWs s) :
    noLeadWs (rmsAux fuel s) := by
  cases s with
  | nil => rw [rmsAux_nil]; exact h
  | cons c rest =>
    intro c' hc'
    have hcf : isPySpace c = false := h c rfl
    rw [rmsAux_head_of_nonspace fuel c rest hcf] at hc'
    have : c = c' := by simpa using hc'
    subst this
    exact hcf

/-- Helper: the collapse keeps a whitespace-free tail whitespace-free. -/
theorem noTrail_rmsAux :
    ∀ (fuel : Nat) (s : List Char), s.length ≤ fuel → noTrailWs s →
      noTrailWs (rmsAux fuel s) := by
  intro fuel
  induction fuel with
  | zero =>
    intro s hs ht
    have hnil : s = [] := List.eq_nil_of_length_eq_zero (Nat.le_zero.mp hs)
    subst hnil
    rw [rmsAux_nil]
    exact ht
  | succ fuel ih =>
    intro s hs ht
    cases s with
    | nil => rw [rmsAux_nil]; exact ht
    | cons c rest =>
      by_cases hc : isPySpace c = true
      · cases rest with
        | nil => exact absurd (ht c (by simp)) (by simp [hc])
        | cons d rest2 =>
          by_cases hd : isPySpace d = true
          · simp only [rmsAux, hc, if_true, hd]
            have hw : rest2.dropWhile isPySpace ≠ [] := by
              intro hnil
              have hall := List.dropWhile_eq_nil_iff.mp hnil
              cases rest2 with
              | nil => exact absurd (ht d (by simp)) (by simp [hd])
              | cons e rest3 =>
                obtain ⟨x, hx⟩ : ∃ x, (e :: rest3).getLast? = some x := by
                  cases hgl : (e :: rest3).getLast? with
                  | none => simp at hgl
                  | some x => exact ⟨x, rfl⟩
                have hxs : isPySpace x = true :=
                  hall x (List.mem_of_getLast?_eq_some hx)
                have hlast : (c :: d :: e :: rest3).getLast? = some x := by
                  simpa using hx
                exact absurd (ht x hlast) (by simp [hxs])
            obtain ⟨w0, w1, hw01⟩ :
                ∃ w0 w1, rest2.dropWhile isPySpace = w0 :: w1 := by
              cases hww : rest2.dropWhile isPySpace with
              | nil => exact absurd hww hw
              | cons a b => exact ⟨a, b, rfl⟩
            have hrest2ne : rest2 ≠ [] := by
              intro hnil
              subst hnil
              simp [List.dropWhile] at hw01
            have htw : noTrailWs (rest2.dropWhile isPySpace) := by
              intro x hx
              apply ht x
              rw [dropWhile_getLast?_eq rest2 hw] at hx
              cases rest2 with
              | nil => exact absurd rfl hrest2ne
              | cons e rest3 => simpa using hx
            have hlen : (rest2.dropWhile isPySpace).length ≤ fuel := by
              have h1 := (List.dropWhile_suffix (l := rest2) isPySpace).length_le
              simp only [List.length_cons] at hs
              omega
            have hihw := ih (rest2.dropWhile isPySpace) hlen htw
            intro x hx
            obtain ⟨X0, X1, hX⟩ :
                ∃ X0 X1, rmsAux fuel (rest2.dropWhile isPySpace) = X0 :: X1 := by
              cases hXX : rmsAux fuel (rest2.dropWhile isPySpace) with
              | nil =>
                rw [hw01] at hXX
                exact absurd hXX (rmsAux_ne_nil fuel w0 w1)
              | cons a b => exact ⟨a, b, rfl⟩
            rw [hX, List.getLast?_cons_cons] at hx
            exact hihw x (by rw [hX]; exact hx)
          · have hdf : isPySpace d = false := Bool.eq_false_iff.mpr hd
            simp only [rmsAux, hc, if_true, hdf, Bool.false_eq_true, if_false]
            have hrec := ih (d :: rest2) (Nat.le_of_succ_le_succ hs)
              (fun x hx => ht x (by rw [List.getLast?_cons_cons]; exact hx))
            intro x hx
            obtain ⟨X0, X1, hX⟩ : ∃ X0 X1, rmsAux fuel (d :: rest2) = X0 :: X1 := by
              cases hXX : rmsAux fuel (d :: rest2) with
              | nil => exact absurd hXX (rmsAux_ne_nil fuel d rest2)
              | cons a b => exact ⟨a, b, rfl⟩
            rw [hX, List.getLast?_cons_cons] at hx
            exact hrec x (by rw [hX]; exact hx)
      · have hcf : isPySpace c = false := Bool.eq_false_iff.mpr hc
        simp only [rmsAux, hcf, Bool.false_eq_true, if_false]
        cases rest with
        | nil =>
          rw [rmsAux_nil]
          intro x hx
          have hxc : c = x := by simpa using hx
          subst hxc
          exact hcf
        | cons d rest2 =>
          have hrec := ih (d :: rest2) (Nat.le_of_succ_le_succ hs)
            (fun x hx => ht x (by rw [List.getLast?_cons_cons]; exact hx))
          intro x hx
          obtain ⟨X0, X1, hX⟩ : ∃ X0 X1, rmsAux fuel (d :: rest2) = X0 :: X1 := by
            cases hXX : rmsAux fuel (d :: rest2) with
            | nil => exact absurd hXX (rmsAux_ne_nil fuel d rest2)
            | cons a b => exact ⟨a, b, rfl⟩
          rw [hX, List.getLast?_cons_cons] at hx
          exact hrec x (by rw [hX]; exact hx)

/-- Helper: dropping whitespace from a list with a whitespace-free head is
the identity. -/
theorem dropWhile_eq_self_of_noLead (l : List Char) (h : noLeadWs l) :
    l.dropWhile isPySpace = l := by
  cases l with
  | nil => rfl
  | cons c rest =>
    have hcf : isPySpace c = false := h c rfl
    rw [List.dropWhile_cons_of_neg (by simp [hcf])]

/-- Helper: trimming a list with whitespace-free ends changes nothing. -/
theorem pyStrip_of_clean (l : List Char) (h1 : noLeadWs l) (h2 : noTrailWs l) :
    pyStrip l = l := by
  unfold pyStrip
  rw [dropWhile_eq_self_of_noLead l h1]
  rw [dropWhile_eq_self_of_noLead l.reverse
    (fun c hc => h2 c (by rwa [List.head?_reverse] at hc))]
  exact List.reverse_reverse l

/-- Helper: trimming leaves no leading whitespace. -/
theorem pyStrip_noLead (s : List Char) : noLeadWs (pyStrip s) := by
  intro c hc
  unfold pyStrip at hc
  rw [List.head?_reverse] at hc
  by_cases hY : (s.dropWhile isPySpace).reverse.dropWhile isPySpace = []
  · rw [hY] at hc
    simp at hc
  · rw [dropWhile_getLast?_eq _ hY, List.getLast?_reverse] at hc
    exact dropWhile_head_false s c hc

/-- Helper: trimming leaves no trailing whitespace. -/
theorem pyStrip_noTrail (s : List Char) : noTrailWs (pyStrip s) := by
  intro c hc
  unfold pyStrip at hc
  rw [List.getLast?_reverse] at hc
  exact dropWhile_head_false _ c hc

/-- Claim C5: the pipeline made of the trim transform followed by the
multi-space collapse is idempotent on strings: applying the composed
pipeline twice yields the same result as applying it once. -/
theorem claim5 (s : List Char) :
    composeCore [Transform.strip, Transform.removeMultipleSpaces]
      (composeCore [Transform.strip, Transform.removeMultipleSpaces] s) =
      composeCore [Transform.strip, Transform.removeMultipleSpaces] s := by
  show rms (pyStrip (rms (pyStrip s))) = rms (pyStrip s)
  have hL : noLeadWs (pyStrip s) := pyStrip_noLead s
  have hT : noTrailWs (pyStrip s) := pyStrip_noTrail s
  have htL : noLeadWs (rms (pyStrip s)) :=
    noLead_rmsAux (pyStrip s).length (pyStrip s) hL
  have htT : noTrailWs (rms (pyStrip s)) :=
    noTrail_rmsAux (pyStrip s).length (pyStrip s) Nat.le.refl hT
  have htD : noDoubleWs (rms (pyStrip s)) :=
    noDouble_rmsAux (pyStrip s).length (pyStrip s) Nat.le.refl
  rw [pyStrip_of_clean (rms (pyStrip s)) htL htT]
  exact rmsAux_of_noDouble (rms (pyStrip s)) htD (rms (pyStrip s)).length
